import Mathlib

/-!
Verification of the `columnar` single-header C++ library (columnar.h).

The table class `Columnar<ColumnTypes...>` is shallowly embedded: the
template parameter pack becomes an explicit schema (a list of column
types), the per-column `std::vector`s become lists of tagged values, and
every fallible operation returns `Except CsvError`.  Strings are modelled
as `List Char` so that the character-level tokenization of the loader
(`std::getline` with a `','` delimiter, `operator>>` token extraction,
`std::from_chars`, `strtod`) can be stated and executed directly.
-/

set_option maxRecDepth 8000

namespace columnar

/-- Error taxonomy, from `enum class CsvError` in columnar.h. -/
inductive CsvError where
  | FileNotFound
  | ParseError
  | InvalidFormat
  | ColumnNotFound
  | RowIndexOutOfBounds
deriving DecidableEq

/-- The closed set of column types admitted by the `ColumnType` concept:
signed integers, floating point, and `std::string`.  The examples and
tests instantiate the integral case with `int` (32-bit) and the floating
case with `double`; those representative instantiations are modelled. -/
inductive ColType where
  | intCol
  | floatCol
  | strCol
deriving DecidableEq

/-- Observable value domain of a C `double` as produced by `strtod`:
a finite value (recorded as the exact rational denoted by the accepted
numeral; the IEEE rounding applied by `strtod` is not observed by any
verified property), a signed infinity, or a NaN. -/
inductive FVal where
  | finite (q : ℚ)
  | inf (neg : Bool)
  | nan
deriving DecidableEq

/-- A single cell value, tagged with its column type. -/
inductive Value where
  | intV (i : ℤ)
  | floatV (x : FVal)
  | strV (s : List Char)
deriving DecidableEq

/-- The column type a value belongs to. -/
def Value.tag : Value → ColType
  | .intV _ => .intCol
  | .floatV _ => .floatCol
  | .strV _ => .strCol

/-- Characters accepted by `isspace` in the default C locale; this is the
set skipped by `operator>>` and by `strtod`. -/
def isCppSpace (c : Char) : Bool :=
  c = ' ' || c = '\t' || c = '\n' || c = '\x0b' || c = '\x0c' || c = '\r'

/-- One `std::getline(stream, field, ',')` step: fails (returns `none`)
on an exhausted stream, otherwise yields the characters before the first
comma and the rest of the stream with that delimiter consumed. -/
def getlineField : List Char → Option (List Char × List Char)
  | [] => none
  | c :: cs =>
    some ((c :: cs).takeWhile (· ≠ ','), ((c :: cs).dropWhile (· ≠ ',')).tail)

theorem length_dropWhile_le (p : Char → Bool) (l : List Char) :
    (l.dropWhile p).length ≤ l.length := by
  induction l with
  | nil => simp [List.dropWhile]
  | cons c cs ih =>
    by_cases h : p c <;> simp [List.dropWhile, h] <;> omega

/-- One `std::getline` of the header loop, accumulating the current
field's characters: at end of stream the accumulated field is the last
one; at a delimiter the field is emitted and a further `getline` is
attempted, which fails (producing no field) exactly when the stream is
already exhausted. -/
def splitCsvAux : List Char → List Char → List (List Char)
  | acc, [] => [acc]
  | acc, c :: cs =>
    if c = ',' then
      acc ::
        (match cs with
          | [] => []
          | c' :: cs' => splitCsvAux [] (c' :: cs'))
    else splitCsvAux (acc ++ [c]) cs

/-- The header-splitting loop of `try_read_from_csv`: repeated
`std::getline` on a string stream with the comma delimiter, until the
stream is exhausted.  A terminal delimiter therefore does not produce a
trailing empty field, and an empty line produces no fields. -/
def splitCsv (l : List Char) : List (List Char) :=
  match l with
  | [] => []
  | c :: cs => splitCsvAux [] (c :: cs)

/-- Numeric value of a string of decimal digits (most significant first). -/
def natOfDigits (l : List Char) : ℕ :=
  l.foldl (fun n c => 10 * n + (c.toNat - '0'.toNat)) 0

/-- `std::from_chars` for a signed 32-bit `int` (the instantiation used
throughout the repository's tests and examples): the whole field must be
an optional minus sign followed by one or more decimal digits (no plus
sign, no whitespace skipping), and the value must fit in the type's
range; the caller in columnar.h additionally rejects any partial parse,
so acceptance requires the numeral to span the whole field. -/
def parse_value_int (cs : List Char) : Option ℤ :=
  match cs with
  | '-' :: ds =>
    if ds ≠ [] ∧ ds.all Char.isDigit then
      let v : ℤ := -(natOfDigits ds : ℤ)
      if -(2 ^ 31) ≤ v then some v else none
    else none
  | ds =>
    if ds ≠ [] ∧ ds.all Char.isDigit then
      let v : ℤ := (natOfDigits ds : ℤ)
      if v < 2 ^ 31 then some v else none
    else none

/-- Value of a hexadecimal digit. -/
def hexDigitVal (c : Char) : ℕ :=
  if c.isDigit then c.toNat - '0'.toNat
  else if 'a' ≤ c ∧ c ≤ 'f' then c.toNat - 'a'.toNat + 10
  else if 'A' ≤ c ∧ c ≤ 'F' then c.toNat - 'A'.toNat + 10
  else 0

def isHexDigit (c : Char) : Bool :=
  c.isDigit || ('a' ≤ c && c ≤ 'f') || ('A' ≤ c && c ≤ 'F')

/-- Numeric value of a string of hexadecimal digits. -/
def natOfHexDigits (l : List Char) : ℕ :=
  l.foldl (fun n c => 16 * n + hexDigitVal c) 0

/-- Decimal significand of a `strtod` subject sequence: a nonempty
sequence of decimal digits optionally containing one period, consumed
greedily.  Returns the exact rational value and the unconsumed
remainder; `none` when no digit is present. -/
def parseDecSig (cs : List Char) : Option (ℚ × List Char) :=
  let ip := cs.takeWhile Char.isDigit
  let r1 := cs.dropWhile Char.isDigit
  match r1 with
  | '.' :: r2 =>
    let fp := r2.takeWhile Char.isDigit
    let r3 := r2.dropWhile Char.isDigit
    if ip = [] ∧ fp = [] then none
    else some (mkRat (natOfDigits (ip ++ fp) : ℤ) (10 ^ fp.length), r3)
  | _ => if ip = [] then none else some (mkRat (natOfDigits ip : ℤ) 1, r1)

/-- Hexadecimal significand (after the `0x` prefix): a nonempty sequence
of hexadecimal digits optionally containing one period. -/
def parseHexSig (cs : List Char) : Option (ℚ × List Char) :=
  let ip := cs.takeWhile isHexDigit
  let r1 := cs.dropWhile isHexDigit
  match r1 with
  | '.' :: r2 =>
    let fp := r2.takeWhile isHexDigit
    let r3 := r2.dropWhile isHexDigit
    if ip = [] ∧ fp = [] then none
    else some (mkRat (natOfHexDigits (ip ++ fp) : ℤ) (16 ^ fp.length), r3)
  | _ => if ip = [] then none else some (mkRat (natOfHexDigits ip : ℤ) 1, r1)

/-- Exponent tail after an `e`/`E` (or `p`/`P`) marker: an optional sign
and a nonempty digit string; `none` when no digit follows, in which case
the marker is not part of the subject sequence. -/
def expDigits : List Char → Option (ℤ × List Char)
  | '+' :: r =>
    let d := r.takeWhile Char.isDigit
    if d = [] then none else some ((natOfDigits d : ℤ), r.dropWhile Char.isDigit)
  | '-' :: r =>
    let d := r.takeWhile Char.isDigit
    if d = [] then none else some (-(natOfDigits d : ℤ), r.dropWhile Char.isDigit)
  | r =>
    let d := r.takeWhile Char.isDigit
    if d = [] then none else some ((natOfDigits d : ℤ), r.dropWhile Char.isDigit)

/-- Optional exponent part; `isHex` selects the `p` marker (binary
exponent) over the `e` marker. -/
def parseExp (isHex : Bool) (cs : List Char) : ℤ × List Char :=
  match cs with
  | c :: r =>
    if (!isHex && (c = 'e' || c = 'E')) || (isHex && (c = 'p' || c = 'P')) then
      match expDigits r with
      | some (e, rest) => (e, rest)
      | none => (0, cs)
    else (0, cs)
  | [] => (0, [])

def toLowerCh (c : Char) : Char :=
  if 'A' ≤ c ∧ c ≤ 'Z' then Char.ofNat (c.toNat + 32) else c

/-- Case-insensitive literal match; returns the remainder on success. -/
def matchCI : List Char → List Char → Option (List Char)
  | [], cs => some cs
  | p :: ps, c :: cs => if toLowerCh c = p then matchCI ps cs else none
  | _ :: _, [] => none

/-- Optional parenthesised n-char-sequence after `nan`, consumed only
when a complete group of alphanumeric/underscore characters closed by a
parenthesis is present. -/
def nanSeq (cs : List Char) : List Char :=
  match cs with
  | '(' :: r =>
    match r.dropWhile (fun c => c.isAlphanum || c = '_') with
    | ')' :: rest => rest
    | _ => cs
  | _ => cs

/-- The converted value with the subject sequence's sign applied. -/
def applySign (neg : Bool) (q : ℚ) : ℚ :=
  if neg then Rat.neg q else q

/-- Exact scaling of the significand by `base ^ e` (`base` is 10 for a
decimal exponent, 2 for a hexadecimal binary exponent), computed on the
numerator or denominator and renormalized; this yields the same exact
rational as multiplying by `base ^ e`. -/
def scalePow (base : ℕ) (q : ℚ) (e : ℤ) : ℚ :=
  if 0 ≤ e then mkRat (q.num * ((base ^ e.toNat : ℕ) : ℤ)) q.den
  else mkRat q.num (q.den * base ^ (-e).toNat)

/-- Decimal branch of the `strtod` subject sequence (used when the input
after the sign is not hexadecimal, infinity or NaN). -/
def strtodDec (neg : Bool) (cs : List Char) : Option (FVal × List Char) :=
  match parseDecSig cs with
  | none => none
  | some (q, r2) =>
    let er := parseExp false r2
    some (.finite (scalePow 10 (applySign neg q) er.1), er.2)

/-- Numeric (non-inf, non-NaN) branch of the subject sequence: a
hexadecimal significand after a `0x`/`0X` prefix with optional binary
exponent, falling back to the decimal form whenever the hexadecimal
shape is absent. -/
def strtodNum (neg : Bool) (cs1 : List Char) : Option (FVal × List Char) :=
  match cs1 with
  | '0' :: x :: r =>
    if x = 'x' ∨ x = 'X' then
      match parseHexSig r with
      | some (q, r2) =>
        let er := parseExp true r2
        some (.finite (scalePow 2 (applySign neg q) er.1), er.2)
      | none => strtodDec neg ('0' :: x :: r)
    else strtodDec neg ('0' :: x :: r)
  | cs => strtodDec neg cs

/-- The `strtod` subject sequence after the optional sign: an infinity,
a NaN, a hexadecimal significand with optional binary exponent, or a
decimal significand with optional decimal exponent, always matching
greedily.  Returns the converted value and the unconsumed remainder;
`none` when no conversion can be performed. -/
def strtodBody (neg : Bool) (cs1 : List Char) : Option (FVal × List Char) :=
  match matchCI "infinity".data cs1 with
  | some rest => some (.inf neg, rest)
  | none =>
  match matchCI "inf".data cs1 with
  | some rest => some (.inf neg, rest)
  | none =>
  match matchCI "nan".data cs1 with
  | some rest => some (.nan, nanSeq rest)
  | none => strtodNum neg cs1

/-- The `strtod` subject sequence, starting after leading whitespace:
an optional sign followed by the body. -/
def strtodAux (cs : List Char) : Option (FVal × List Char) :=
  match cs with
  | '+' :: r => strtodBody false r
  | '-' :: r => strtodBody true r
  | r => strtodBody false r

/-- Smallest magnitude at which round-to-nearest-even sends a value to
IEEE binary64 infinity (DBL_MAX is 2^1024 - 2^971; the halfway point to
the next would-be value 2^1024 rounds up, to even). -/
def ovflThreshold : ℚ := mkRat ((2 ^ 1024 - 2 ^ 970 : ℕ) : ℤ) 1

/-- Smallest positive normal binary64 value; glibc's `strtod` stores
`ERANGE` when a nonzero numeral's magnitude falls below it (underflow to
zero or to the subnormal range). -/
def tinyThreshold : ℚ := mkRat 1 (2 ^ 1022)

def qabs (q : ℚ) : ℚ := if q < 0 then Rat.neg q else q

/-- Whether `strtod` stores `ERANGE` for the converted value: finite
values that overflow to infinity or underflow below the normal range; an
explicit infinity or NaN literal never sets it. -/
def fvalErange : FVal → Bool
  | .finite q =>
    decide (ovflThreshold ≤ qabs q) || (decide (q ≠ 0) && decide (qabs q < tinyThreshold))
  | .inf _ => false
  | .nan => false

/-- The observable outcome of `strtod(str, &end)` on a NUL-free field:
the converted value, the offset of `end` from the start of the string
(0 when no conversion is performed, as the C standard requires), and
whether `ERANGE` was stored in `errno`. -/
def strtod (cs : List Char) : FVal × ℕ × Bool :=
  match strtodAux (cs.dropWhile isCppSpace) with
  | none => (.finite 0, 0, false)
  | some (v, rest) => (v, cs.length - rest.length, fvalErange v)

/-- `Columnar::parse_value` for floating-point columns: reject when no
conversion was performed (`end == str_copy.c_str()`), when the
conversion did not consume the whole field (`*end != '\0'`), or when
`errno` holds `ERANGE`; accept the converted value otherwise. -/
def parse_value_float (cs : List Char) : Option FVal :=
  let out := strtod cs
  if out.2.1 = 0 then none
  else if out.2.1 ≠ cs.length then none
  else if out.2.2 then none
  else some out.1

/-- `Columnar::parse_value`, dispatched on the column's declared type:
`std::from_chars` for integral columns, `strtod` for floating-point
columns, and the field taken verbatim for string columns. -/
def parse_value : ColType → List Char → Option Value
  | .intCol, cs => (parse_value_int cs).map .intV
  | .floatCol, cs => (parse_value_float cs).map .floatV
  | .strCol, cs => some (.strV cs)

/-- An instance of `Columnar<ColumnTypes...>`: the template parameter
pack is reified as `schema`, the `names_` array and per-column
`std::vector`s become lists, and `row_count_` is kept explicitly. -/
structure Columnar where
  schema : List ColType
  names_ : List (List Char)
  columns_ : List (List Value)
  row_count_ : ℕ
deriving DecidableEq

/-- Placeholder used to model in-bounds `std::vector`/`std::span`
indexing with `List.getD`; it is never produced by an access that the
C++ code performs on a well-formed table. -/
def defaultValue : Value := .strV []

/-- Invariants of every table the C++ class can expose: the fixed-arity
`names_` array and `columns_` tuple have one entry per schema position,
every column store holds exactly `row_count_` values, and each store is
homogeneously typed as its schema position dictates. -/
def Columnar.WF (t : Columnar) : Prop :=
  t.names_.length = t.schema.length ∧
  t.columns_.length = t.schema.length ∧
  (∀ col ∈ t.columns_, col.length = t.row_count_) ∧
  ∀ i < t.schema.length, ∀ v ∈ t.columns_.getD i [], v.tag = t.schema.getD i .strCol

/-- `num_rows()`. -/
def Columnar.num_rows (t : Columnar) : ℕ := t.row_count_

/-- `num_cols()` (`kColumnCount`, the arity of the parameter pack). -/
def Columnar.num_cols (t : Columnar) : ℕ := t.schema.length

/-- `column_names()`. -/
def Columnar.column_names (t : Columnar) : List (List Char) := t.names_

/-- The positional `get_column_view<I>()`: a view of the column stored
at schema position `I` (the `static_assert` bound `I < kColumnCount` is
a hypothesis of every theorem that uses it). -/
def Columnar.get_column_view_pos (t : Columnar) (i : ℕ) : List Value :=
  t.columns_.getD i []

/-- `std::find` over `names_` followed by `std::distance`: index of the
first occurrence of `name`, if any. -/
def findColIdx (names : List (List Char)) (name : List Char) : Option ℕ :=
  match names with
  | [] => none
  | n :: ns => if n = name then some 0 else (findColIdx ns name).map (· + 1)

/-- The by-name `get_column_view<T>(name)`: locate the first column
whose name matches; `ColumnNotFound` when none does; `ParseError` when
the column found stores a different type than the requested one; the
column's full contents otherwise.  (The fallthrough arm is unreachable:
`std::find` can only return an index below the fixed arity.) -/
def Columnar.get_column_view (t : Columnar) (T : ColType) (name : List Char) :
    Except CsvError (List Value) :=
  match findColIdx t.names_ name with
  | none => .error .ColumnNotFound
  | some index =>
    match t.schema.get? index, t.columns_.get? index with
    | some τ, some col => if τ = T then .ok col else .error .ParseError
    | _, _ => .error .ParseError

/-- `get_row(index)`: `RowIndexOutOfBounds` for `index >= row_count_`,
otherwise the tuple of each column's value at `index`, in schema
order. -/
def Columnar.get_row (t : Columnar) (index : ℕ) : Except CsvError (List Value) :=
  if index ≥ t.row_count_ then .error .RowIndexOutOfBounds
  else .ok (t.columns_.map (fun col => col.getD index defaultValue))

/-- The row at `index` as materialized by `get_row` on the success path
(also the reference point for filter correctness statements). -/
def Columnar.rowVals (t : Columnar) (index : ℕ) : List Value :=
  t.columns_.map (fun col => col.getD index defaultValue)

/-- `filter<T>(column_name, predicate)`: resolve the named column,
propagating its error; collect, in increasing order, the row indices at
which the predicate holds on that column's value; and build a table with
the same names and schema whose every column store holds exactly the
retained indices' values copied from the source. -/
def Columnar.filter (t : Columnar) (T : ColType) (column_name : List Char)
    (predicate : Value → Bool) : Except CsvError Columnar :=
  match t.get_column_view T column_name with
  | .error e => .error e
  | .ok column_to_filter =>
    let indices_to_keep := (List.range t.row_count_).filter
      (fun i => predicate (column_to_filter.getD i defaultValue))
    .ok { schema := t.schema
          names_ := t.names_
          columns_ := t.columns_.map
            (fun src => indices_to_keep.map (fun idx => src.getD idx defaultValue))
          row_count_ := indices_to_keep.length }

/-- Row parsing inside the load loop: for each schema position in order,
one `std::getline(row_stream, value_str, ',')` (failure of which makes
the row short) followed by `parse_value`; after all positions are
consumed, `row_stream >> value_str` must fail to extract a further
token, i.e. the remainder of the line must contain no non-whitespace
character. -/
def parseFields : List ColType → List Char → Option (List Value)
  | [], rest => if rest.all (fun c => isCppSpace c) then some [] else none
  | τ :: τs, cs =>
    match getlineField cs with
    | none => none
    | some (f, rest) =>
      match parse_value τ f with
      | none => none
      | some v => (parseFields τs rest).map (v :: ·)

/-- One successful row: push each value onto its column's store. -/
def pushRow (cols : List (List Value)) (row : List Value) : List (List Value) :=
  List.zipWith (fun col v => col ++ [v]) cols row

/-- The data-line loop of `try_read_from_csv`: blank lines are skipped,
any row that fails to parse aborts the load with `ParseError`, and every
successful row increments the row count. -/
def loadLines (schema : List ColType) :
    List (List Char) → List (List Value) → ℕ → Except CsvError (List (List Value) × ℕ)
  | [], cols, rc => .ok (cols, rc)
  | line :: rest, cols, rc =>
    if line = [] then loadLines schema rest cols rc
    else
      match parseFields schema line with
      | none => .error .ParseError
      | some row => loadLines schema rest (pushRow cols row) (rc + 1)

/-- `try_read_from_csv`: the file is either unopenable (`none`, giving
`FileNotFound`) or a list of the lines `std::getline` yields.  A missing
or empty first line is `InvalidFormat`; the header is split on commas
and must yield exactly one field per schema position (the in-loop
overflow check and the final count check both report `InvalidFormat`);
then the data lines are consumed by `loadLines`. -/
def try_read_from_csv (schema : List ColType) (file : Option (List (List Char))) :
    Except CsvError Columnar :=
  match file with
  | none => .error .FileNotFound
  | some [] => .error .InvalidFormat
  | some (header :: rest) =>
    if header = [] then .error .InvalidFormat
    else
      let names := splitCsv header
      if names.length ≠ schema.length then .error .InvalidFormat
      else
        match loadLines schema rest (schema.map fun _ => []) 0 with
        | .error e => .error e
        | .ok (cols, rc) => .ok ⟨schema, names, cols, rc⟩

/-! ### Generic list lemmas -/

theorem getD_map_of_lt {α β : Type} (f : α → β) (l : List α) (j : ℕ)
    (hj : j < l.length) (d : β) (d' : α) :
    (l.map f).getD j d = f (l.getD j d') := by
  induction l generalizing j with
  | nil => simp at hj
  | cons a as ih =>
    cases j with
    | zero => simp
    | succ j =>
      simp only [List.map_cons, List.getD_cons_succ]
      exact ih j (by simp only [List.length_cons] at hj; omega)

theorem getD_mem_of_lt {α : Type} (l : List α) (j : ℕ) (hj : j < l.length) (d : α) :
    l.getD j d ∈ l := by
  induction l generalizing j with
  | nil => simp at hj
  | cons a as ih =>
    cases j with
    | zero => simp
    | succ j =>
      simp only [List.getD_cons_succ]
      exact List.mem_cons_of_mem _ (ih j (by simp only [List.length_cons] at hj; omega))

theorem mem_iff_getD {α : Type} (l : List α) (x d : α) :
    x ∈ l ↔ ∃ i, i < l.length ∧ l.getD i d = x := by
  constructor
  · intro hx
    induction l with
    | nil => simp at hx
    | cons a as ih =>
      rcases List.mem_cons.mp hx with rfl | hx'
      · exact ⟨0, by simp, by simp⟩
      · obtain ⟨i, hi, hgd⟩ := ih hx'
        exact ⟨i + 1, by simp only [List.length_cons]; omega, by simpa using hgd⟩
  · rintro ⟨i, hi, rfl⟩
    exact getD_mem_of_lt l i hi d

theorem getD_zipWith {α β γ : Type} (f : α → β → γ) (as : List α) (bs : List β)
    (i : ℕ) (hia : i < as.length) (hib : i < bs.length) (d : γ) (da : α) (db : β) :
    (List.zipWith f as bs).getD i d = f (as.getD i da) (bs.getD i db) := by
  induction as generalizing bs i with
  | nil => simp at hia
  | cons a as ih =>
    cases bs with
    | nil => simp at hib
    | cons b bs =>
      cases i with
      | zero => simp
      | succ i =>
        simp only [List.zipWith_cons_cons, List.getD_cons_succ]
        exact ih bs i (by simp only [List.length_cons] at hia; omega)
          (by simp only [List.length_cons] at hib; omega)

theorem get?_eq_some_getD {α : Type} (l : List α) (i : ℕ) (d : α) (h : i < l.length) :
    l.get? i = some (l.getD i d) := by
  induction l generalizing i with
  | nil => simp at h
  | cons a as ih =>
    cases i with
    | zero => simp
    | succ i => simpa using ih i (by simp only [List.length_cons] at h; omega)

theorem comp_getD_succ {α β : Type} (g : α → β) (a : α) (as : List α) (d : α) :
    ((fun j => g ((a :: as).getD j d)) ∘ Nat.succ) = fun j => g (as.getD j d) := by
  funext j
  simp only [Function.comp_apply, List.getD_cons_succ]

theorem comp_getD_succ' {α : Type} (a : α) (as : List α) (d : α) :
    ((fun j => (a :: as).getD j d) ∘ Nat.succ) = fun j => as.getD j d := by
  funext j
  simp only [Function.comp_apply, List.getD_cons_succ]

theorem filter_range_getD_map {α : Type} (l : List α) (q : α → Bool) (d : α) :
    ((List.range l.length).filter (fun j => q (l.getD j d))).map (fun j => l.getD j d)
      = l.filter q := by
  induction l with
  | nil => simp
  | cons a as ih =>
    rw [List.length_cons, List.range_succ_eq_map, List.filter_cons]
    simp only [List.getD_cons_zero]
    rw [List.filter_map, comp_getD_succ q a as d]
    by_cases hq : q a
    · rw [if_pos hq, List.map_cons, List.map_map, comp_getD_succ' a as d]
      simp only [List.getD_cons_zero]
      rw [ih, List.filter_cons_of_pos hq]
    · rw [if_neg hq, List.map_map, comp_getD_succ' a as d]
      rw [ih, List.filter_cons_of_neg hq]

/-! ### Characterization of the name lookup -/

theorem findColIdx_bound (names : List (List Char)) (name : List Char) (i : ℕ)
    (h : findColIdx names name = some i) : i < names.length := by
  induction names generalizing i with
  | nil => simp [findColIdx] at h
  | cons n ns ih =>
    by_cases hn : n = name
    · simp only [findColIdx, if_pos hn, Option.some.injEq] at h
      simp only [List.length_cons]
      omega
    · simp only [findColIdx, if_neg hn, Option.map_eq_some'] at h
      obtain ⟨k, hk, rfl⟩ := h
      have := ih k hk
      simp only [List.length_cons]
      omega

theorem findColIdx_none_iff (names : List (List Char)) (name : List Char) :
    findColIdx names name = none ↔ name ∉ names := by
  induction names with
  | nil => simp [findColIdx]
  | cons n ns ih =>
    by_cases hn : n = name
    · subst hn
      simp [findColIdx]
    · simp only [findColIdx, if_neg hn, Option.map_eq_none', ih, List.mem_cons]
      constructor
      · intro hmem hor
        rcases hor with h1 | h2
        · exact hn h1.symm
        · exact hmem h2
      · intro hall hmem
        exact hall (Or.inr hmem)

theorem findColIdx_some_iff (names : List (List Char)) (name : List Char) (i : ℕ) :
    findColIdx names name = some i ↔
      i < names.length ∧ names.getD i [] = name ∧ ∀ k < i, names.getD k [] ≠ name := by
  induction names generalizing i with
  | nil => simp [findColIdx]
  | cons n ns ih =>
    by_cases hn : n = name
    · simp only [findColIdx, if_pos hn, Option.some.injEq]
      constructor
      · rintro rfl
        exact ⟨by simp only [List.length_cons]; omega, by simpa using hn, by omega⟩
      · rintro ⟨hi, hgd, hfirst⟩
        by_contra hne
        have h0 : 0 < i := by omega
        have := hfirst 0 h0
        simp only [List.getD_cons_zero] at this
        exact this hn
    · simp only [findColIdx, if_neg hn]
      cases i with
      | zero =>
        simp only [Option.map_eq_some']
        constructor
        · rintro ⟨k, _, hk⟩
          omega
        · rintro ⟨_, hgd, _⟩
          simp only [List.getD_cons_zero] at hgd
          exact absurd hgd hn
      | succ i =>
        simp only [Option.map_eq_some']
        constructor
        · rintro ⟨k, hk, hki⟩
          have hk' := (ih k).mp hk
          obtain ⟨hklen, hkgd, hkfirst⟩ := hk'
          have : k = i := by omega
          subst this
          refine ⟨by simp only [List.length_cons]; omega, by simpa using hkgd, ?_⟩
          intro m hm
          cases m with
          | zero => simpa using hn
          | succ m =>
            simp only [List.getD_cons_succ]
            exact hkfirst m (by omega)
        · rintro ⟨hlen, hgd, hfirst⟩
          refine ⟨i, (ih i).mpr ⟨?_, ?_, ?_⟩, rfl⟩
          · simp only [List.length_cons] at hlen; omega
          · simpa using hgd
          · intro m hm
            have := hfirst (m + 1) (by omega)
            simpa using this

/-! ### Accessor layer -/

instance {ε α : Type} [DecidableEq ε] [DecidableEq α] : DecidableEq (Except ε α)
  | .ok a, .ok b =>
    if h : a = b then isTrue (by rw [h]) else isFalse (by simp [h])
  | .ok _, .error _ => isFalse (by simp)
  | .error _, .ok _ => isFalse (by simp)
  | .error e, .error f =>
    if h : e = f then isTrue (by rw [h]) else isFalse (by simp [h])

instance (t : Columnar) : Decidable t.WF := by
  unfold Columnar.WF
  infer_instance

/-- C8: `get_row(index)` fails with `RowIndexOutOfBounds` exactly when
`index >= row_count`; for every index below the row count it succeeds
and returns a materialized tuple in schema order whose element at every
position `i` equals the positional column view's element at `index`
(view/row consistency). -/
theorem get_row_spec (t : Columnar) (hWF : t.WF) (index : ℕ) :
    (t.get_row index = .error .RowIndexOutOfBounds ↔ t.row_count_ ≤ index) ∧
    (index < t.row_count_ →
      ∃ row, t.get_row index = .ok row ∧ row.length = t.num_cols ∧
        ∀ i < t.num_cols,
          row.getD i defaultValue = (t.get_column_view_pos i).getD index defaultValue) := by
  obtain ⟨hn, hc, hlen, htag⟩ := hWF
  constructor
  · constructor
    · intro h
      by_cases hge : t.row_count_ ≤ index
      · exact hge
      · simp only [Columnar.get_row, ge_iff_le, if_neg hge] at h
        exact absurd h (by simp)
    · intro h
      simp only [Columnar.get_row, ge_iff_le, if_pos h]
  · intro h
    refine ⟨t.columns_.map (fun col => col.getD index defaultValue), ?_, ?_, ?_⟩
    · simp only [Columnar.get_row, ge_iff_le, if_neg (by omega : ¬ t.row_count_ ≤ index)]
    · simp only [List.length_map, Columnar.num_cols, hc]
    · intro i hi
      have hic : i < t.columns_.length := by
        simp only [Columnar.num_cols] at hi
        omega
      rw [getD_map_of_lt _ _ _ hic _ ([] : List Value)]
      rfl

theorem get_row_spec_witness :
    (Columnar.get_row ⟨[ColType.intCol], ["a".data], [[Value.intV 5]], 1⟩ 1
        = .error CsvError.RowIndexOutOfBounds) ∧
    (Columnar.get_row ⟨[ColType.intCol], ["a".data], [[Value.intV 5]], 1⟩ 0
        = .ok [Value.intV 5]) := by
  refine ⟨(get_row_spec ⟨[ColType.intCol], ["a".data], [[Value.intV 5]], 1⟩
    (by decide) 1).1.mpr (by decide), ?_⟩
  obtain ⟨row, hrow, hlen, hvals⟩ := (get_row_spec
    ⟨[ColType.intCol], ["a".data], [[Value.intV 5]], 1⟩ (by decide) 0).2 (by decide)
  have heval : Columnar.get_row ⟨[ColType.intCol], ["a".data], [[Value.intV 5]], 1⟩ 0
      = .ok [Value.intV 5] := by decide
  have hr : row = [Value.intV 5] := by
    rw [heval] at hrow
    injection hrow with h
    exact h.symm
  exact hr ▸ hrow

theorem get_column_view_eq (t : Columnar) (hn : t.names_.length = t.schema.length)
    (hc : t.columns_.length = t.schema.length) (T : ColType) (name : List Char) (i : ℕ)
    (hf : findColIdx t.names_ name = some i) :
    t.get_column_view T name =
      if t.schema.getD i .strCol = T then .ok (t.columns_.getD i [])
      else .error .ParseError := by
  have hib := findColIdx_bound _ _ _ hf
  have his : i < t.schema.length := by omega
  have hicol : i < t.columns_.length := by omega
  have e1 : t.schema.get? i = some (t.schema.getD i .strCol) := get?_eq_some_getD _ _ _ his
  have e2 : t.columns_.get? i = some (t.columns_.getD i []) := get?_eq_some_getD _ _ _ hicol
  simp only [Columnar.get_column_view, hf, e1, e2]

/-- C7: by-name column lookup fails with `ColumnNotFound` exactly when no
column carries the requested name; fails with `ParseError` exactly when
the first column with that name stores a type other than the requested
one; on success it returns that (first) column's full, `T`-typed
contents; and `filter` propagates the lookup's error unchanged. -/
theorem column_view_by_name_spec (t : Columnar) (hWF : t.WF) (T : ColType)
    (name : List Char) :
    (t.get_column_view T name = .error .ColumnNotFound ↔ name ∉ t.names_) ∧
    (t.get_column_view T name = .error .ParseError ↔
      ∃ i, i < t.names_.length ∧ t.names_.getD i [] = name ∧
        (∀ k < i, t.names_.getD k [] ≠ name) ∧ t.schema.getD i .strCol ≠ T) ∧
    (∀ col, t.get_column_view T name = .ok col →
      ∃ i, i < t.names_.length ∧ t.names_.getD i [] = name ∧
        (∀ k < i, t.names_.getD k [] ≠ name) ∧ t.schema.getD i .strCol = T ∧
        col = t.columns_.getD i [] ∧ col.length = t.row_count_ ∧
        ∀ v ∈ col, v.tag = T) ∧
    (∀ e p, t.get_column_view T name = .error e → t.filter T name p = .error e) := by
  obtain ⟨hn, hc, hlen, htag⟩ := hWF
  cases hf : findColIdx t.names_ name with
  | none =>
    have hnotmem : name ∉ t.names_ := (findColIdx_none_iff _ _).mp hf
    have hg : t.get_column_view T name = .error .ColumnNotFound := by
      simp only [Columnar.get_column_view, hf]
    refine ⟨by simp [hg, hnotmem], ?_, ?_, ?_⟩
    · constructor
      · intro h
        rw [hg] at h
        exact absurd h (by simp)
      · rintro ⟨i, hi, hgd, -, -⟩
        exact absurd (hgd ▸ getD_mem_of_lt _ _ hi []) hnotmem
    · intro col h
      rw [hg] at h
      exact absurd h (by simp)
    · intro e p h
      simp only [Columnar.filter, h]
  | some i =>
    obtain ⟨hilen, higd, hfirst⟩ := (findColIdx_some_iff _ _ _).mp hf
    have hmem : name ∈ t.names_ := higd ▸ getD_mem_of_lt _ _ hilen []
    have hred := get_column_view_eq t hn hc T name i hf
    by_cases hT : t.schema.getD i .strCol = T
    · rw [if_pos hT] at hred
      refine ⟨?_, ?_, ?_, ?_⟩
      · constructor
        · intro h
          rw [hred] at h
          exact absurd h (by simp)
        · intro hnm
          exact absurd hmem hnm
      · constructor
        · intro h
          rw [hred] at h
          exact absurd h (by simp)
        · rintro ⟨j, hj, hjgd, hjfirst, hjT⟩
          have hfj : findColIdx t.names_ name = some j :=
            (findColIdx_some_iff _ _ _).mpr ⟨hj, hjgd, hjfirst⟩
          rw [hf] at hfj
          injection hfj with hij
          exact absurd (hij ▸ hT) hjT
      · intro col h
        rw [hred] at h
        injection h with hcol
        have hcm : t.columns_.getD i [] ∈ t.columns_ :=
          getD_mem_of_lt _ _ (by omega) []
        refine ⟨i, hilen, higd, hfirst, hT, hcol.symm, ?_, ?_⟩
        · rw [← hcol]
          exact hlen _ hcm
        · intro v hv
          rw [← hcol] at hv
          exact hT ▸ htag i (by omega) v hv
      · intro e p h
        rw [hred] at h
        exact absurd h (by simp)
    · rw [if_neg hT] at hred
      refine ⟨?_, ?_, ?_, ?_⟩
      · constructor
        · intro h
          rw [hred] at h
          injection h with he
          exact absurd he (by simp)
        · intro hnm
          exact absurd hmem hnm
      · constructor
        · intro _
          exact ⟨i, hilen, higd, hfirst, hT⟩
        · intro _
          exact hred
      · intro col h
        rw [hred] at h
        exact absurd h (by simp)
      · intro e p h
        rw [hred] at h
        injection h with he
        rw [← he]
        simp only [Columnar.filter, hred]

theorem column_view_by_name_spec_witness :
    Columnar.get_column_view ⟨[ColType.intCol], ["a".data], [[Value.intV 5]], 1⟩
      ColType.intCol "b".data = .error CsvError.ColumnNotFound :=
  (column_view_by_name_spec ⟨[ColType.intCol], ["a".data], [[Value.intV 5]], 1⟩
    (by decide) ColType.intCol "b".data).1.mpr (by decide)

/-- C10: with duplicate column names, the lookup (and hence `filter`)
always resolves to the first (lowest-position) column bearing the name:
its view is returned when its type matches the request, and the call
fails with `ParseError` when it does not — even when a later column with
the same name has the requested type. -/
theorem first_name_match_wins (t : Columnar) (hWF : t.WF) (name : List Char)
    (i j : ℕ) (hij : i < j) (hj : j < t.names_.length)
    (hi_name : t.names_.getD i [] = name)
    (hfirst : ∀ k < i, t.names_.getD k [] ≠ name)
    (hj_name : t.names_.getD j [] = name) (T : ColType) :
    (t.schema.getD i .strCol = T →
      t.get_column_view T name = .ok (t.columns_.getD i [])) ∧
    (t.schema.getD i .strCol ≠ T → t.schema.getD j .strCol = T →
      t.get_column_view T name = .error .ParseError ∧
      ∀ p, t.filter T name p = .error .ParseError) := by
  obtain ⟨hn, hc, -, -⟩ := hWF
  have hilen : i < t.names_.length := by omega
  have hf : findColIdx t.names_ name = some i :=
    (findColIdx_some_iff _ _ _).mpr ⟨hilen, hi_name, hfirst⟩
  have hred := get_column_view_eq t hn hc T name i hf
  constructor
  · intro hT
    rw [if_pos hT] at hred
    exact hred
  · intro hT _
    rw [if_neg hT] at hred
    refine ⟨hred, fun p => ?_⟩
    simp only [Columnar.filter, hred]

theorem first_name_match_wins_witness :
    Columnar.get_column_view
        ⟨[ColType.intCol, ColType.strCol], ["a".data, "a".data],
          [[Value.intV 1], [Value.strV []]], 1⟩ ColType.strCol "a".data
      = .error CsvError.ParseError :=
  ((first_name_match_wins
    ⟨[ColType.intCol, ColType.strCol], ["a".data, "a".data],
      [[Value.intV 1], [Value.strV []]], 1⟩ (by decide) "a".data 0 1
    (by decide) (by decide) (by decide) (by decide) (by decide)
    ColType.strCol).2 (by decide) (by decide)).1

/-! ### Filter engine -/

theorem filter_ok_elim (t : Columnar) (T : ColType) (name : List Char)
    (p : Value → Bool) (t' : Columnar) (h : t.filter T name p = .ok t') :
    ∃ col, t.get_column_view T name = .ok col ∧
      t' = { schema := t.schema, names_ := t.names_,
             columns_ := t.columns_.map (fun src =>
               ((List.range t.row_count_).filter
                 (fun i => p (col.getD i defaultValue))).map
                 (fun idx => src.getD idx defaultValue)),
             row_count_ := ((List.range t.row_count_).filter
               (fun i => p (col.getD i defaultValue))).length } := by
  cases hg : t.get_column_view T name with
  | error e => simp [Columnar.filter, hg] at h
  | ok col =>
    refine ⟨col, rfl, ?_⟩
    simp only [Columnar.filter, hg] at h
    injection h with h
    exact h.symm

theorem sorted_filter_range (n : ℕ) (q : ℕ → Bool) :
    List.Sorted (· < ·) ((List.range n).filter q) :=
  List.Pairwise.sublist (List.filter_sublist _) (List.pairwise_lt_range n)

/-- C1: a successful `filter` returns a table whose row count is the
number of source row indices at which the predicate holds on the
resolved column, whose retained rows are value-for-value equal to the
corresponding source rows and appear in the source's relative order, and
whose column names and schema equal the source's, with fresh column
stores holding exactly those values. -/
theorem filter_spec (t : Columnar) (hWF : t.WF) (T : ColType) (name : List Char)
    (p : Value → Bool) (t' : Columnar) (h : t.filter T name p = .ok t') :
    ∃ col keep, t.get_column_view T name = .ok col ∧
      keep = (List.range t.row_count_).filter (fun i => p (col.getD i defaultValue)) ∧
      t'.row_count_ = keep.length ∧
      t'.names_ = t.names_ ∧
      t'.schema = t.schema ∧
      List.Sorted (· < ·) keep ∧
      (∀ idx ∈ keep, idx < t.row_count_ ∧ p (col.getD idx defaultValue) = true) ∧
      (∀ idx, idx < t.row_count_ → p (col.getD idx defaultValue) = true → idx ∈ keep) ∧
      (∀ j, j < keep.length → t'.rowVals j = t.rowVals (keep.getD j 0)) ∧
      t'.WF := by
  obtain ⟨col, hg, ht'⟩ := filter_ok_elim t T name p t' h
  obtain ⟨hn, hc, hlen, htag⟩ := hWF
  refine ⟨col, _, hg, rfl, ?_, ?_, ?_, sorted_filter_range _ _, ?_, ?_, ?_, ?_⟩
  · rw [ht']
  · rw [ht']
  · rw [ht']
  · intro idx hidx
    have hm := List.mem_filter.mp hidx
    exact ⟨List.mem_range.mp hm.1, hm.2⟩
  · intro idx hlt hp
    exact List.mem_filter.mpr ⟨List.mem_range.mpr hlt, hp⟩
  · intro j hj
    rw [ht']
    unfold Columnar.rowVals
    simp only
    rw [List.map_map]
    have hfun : ((fun (colx : List Value) => colx.getD j defaultValue) ∘
        (fun (src : List Value) => ((List.range t.row_count_).filter
          (fun i => p (col.getD i defaultValue))).map
            (fun idx => src.getD idx defaultValue)))
        = fun (src : List Value) => src.getD
            (((List.range t.row_count_).filter
              (fun i => p (col.getD i defaultValue))).getD j 0) defaultValue := by
      funext src
      simp only [Function.comp_apply]
      rw [getD_map_of_lt _ _ _ hj _ 0]
    rw [hfun]
  · rw [ht']
    refine ⟨by simpa using hn, by simpa using hc, ?_, ?_⟩
    · intro c hcm
      obtain ⟨src, -, rfl⟩ := List.mem_map.mp hcm
      simp [List.length_map]
    · intro i hi v hv
      simp only at hi hv ⊢
      have hic : i < t.columns_.length := by omega
      rw [getD_map_of_lt _ _ _ hic _ []] at hv
      obtain ⟨idx, hidx, rfl⟩ := List.mem_map.mp hv
      have hrc : idx < t.row_count_ := List.mem_range.mp (List.mem_filter.mp hidx).1
      have hsrcmem : t.columns_.getD i [] ∈ t.columns_ := getD_mem_of_lt _ _ hic []
      have hsrclen : (t.columns_.getD i []).length = t.row_count_ := hlen _ hsrcmem
      exact htag i hi _ (getD_mem_of_lt _ _ (by omega) _)

theorem filter_spec_witness :
    (⟨[ColType.intCol], ["n".data], [[Value.intV 2]], 1⟩ : Columnar).WF := by
  obtain ⟨-, -, -, -, -, -, -, -, -, -, -, hWF'⟩ :=
    filter_spec ⟨[ColType.intCol], ["n".data], [[Value.intV 1, Value.intV 2]], 2⟩
      (by decide) ColType.intCol "n".data (fun v => decide (v = Value.intV 2))
      ⟨[ColType.intCol], ["n".data], [[Value.intV 2]], 1⟩ (by decide)
  exact hWF'

theorem filter_result_rowVals (t : Columnar) (keep : List ℕ) (j : ℕ)
    (hj : j < keep.length) :
    Columnar.rowVals
      { schema := t.schema, names_ := t.names_,
        columns_ := t.columns_.map
          (fun src => keep.map (fun idx => src.getD idx defaultValue)),
        row_count_ := keep.length } j
      = t.rowVals (keep.getD j 0) := by
  unfold Columnar.rowVals
  simp only
  rw [List.map_map]
  congr 1
  funext src
  simp only [Function.comp_apply]
  rw [getD_map_of_lt _ _ _ hj _ 0]

/-- C9: filtering twice yields the same rows, in the same order, as a
single filter over the source retaining exactly the rows on which both
predicates hold (each evaluated on its own resolved column of the
source). -/
theorem filter_filter_conj (t : Columnar) (hWF : t.WF) (Ta Tb : ColType)
    (a b : List Char) (pa pb : Value → Bool) (t1 t2 : Columnar)
    (h1 : t.filter Ta a pa = .ok t1) (h2 : t1.filter Tb b pb = .ok t2) :
    ∃ colA colB,
      t.get_column_view Ta a = .ok colA ∧
      t.get_column_view Tb b = .ok colB ∧
      t2.names_ = t.names_ ∧ t2.schema = t.schema ∧
      ∃ keep, keep = (List.range t.row_count_).filter
          (fun i => pa (colA.getD i defaultValue) && pb (colB.getD i defaultValue)) ∧
        t2.row_count_ = keep.length ∧
        ∀ j, j < keep.length → t2.rowVals j = t.rowVals (keep.getD j 0) := by
  obtain ⟨hn, hc, hlen, htag⟩ := hWF
  obtain ⟨colA, hgA, ht1⟩ := filter_ok_elim t Ta a pa t1 h1
  subst ht1
  obtain ⟨colB1, hgB1, ht2⟩ := filter_ok_elim _ Tb b pb t2 h2
  subst ht2
  cases hfb : findColIdx t.names_ b with
  | none =>
    rw [show Columnar.get_column_view _ Tb b = Except.error CsvError.ColumnNotFound from by
      simp only [Columnar.get_column_view, hfb]] at hgB1
    exact absurd hgB1 (by simp)
  | some ib =>
    have hib : ib < t.names_.length := findColIdx_bound _ _ _ hfb
    have hibc : ib < t.columns_.length := by omega
    have hredB1 := get_column_view_eq
      { schema := t.schema, names_ := t.names_,
        columns_ := t.columns_.map (fun src =>
          ((List.range t.row_count_).filter
            (fun i => pa (colA.getD i defaultValue))).map
            (fun idx => src.getD idx defaultValue)),
        row_count_ := ((List.range t.row_count_).filter
          (fun i => pa (colA.getD i defaultValue))).length }
      hn (by simpa using hc) Tb b ib hfb
    rw [hredB1] at hgB1
    by_cases hTb : t.schema.getD ib .strCol = Tb
    · rw [if_pos hTb] at hgB1
      injection hgB1 with hcolB1
      have hgB : t.get_column_view Tb b = .ok (t.columns_.getD ib []) := by
        rw [get_column_view_eq t hn hc Tb b ib hfb, if_pos hTb]
      have hcolB1' : colB1 = ((List.range t.row_count_).filter
          (fun i => pa (colA.getD i defaultValue))).map
          (fun idx => (t.columns_.getD ib []).getD idx defaultValue) := by
        rw [← hcolB1]
        simp only
        rw [getD_map_of_lt _ _ _ hibc _ []]
      refine ⟨colA, t.columns_.getD ib [], hgA, hgB, rfl, rfl, ?_⟩
      set colB := t.columns_.getD ib [] with hcolB
      set keep1 := (List.range t.row_count_).filter
        (fun i => pa (colA.getD i defaultValue)) with hkeep1
      set keep2 := (List.range keep1.length).filter
        (fun j => pb (colB1.getD j defaultValue)) with hkeep2
      have hpred : keep2 = (List.range keep1.length).filter
          (fun j => pb (colB.getD (keep1.getD j 0) defaultValue)) := by
        rw [hkeep2]
        apply List.filter_congr
        intro j hjmem
        have hjlt : j < keep1.length := List.mem_range.mp hjmem
        rw [hcolB1']
        rw [getD_map_of_lt _ _ _ hjlt _ 0]
      have hcomp : keep2.map (fun j => keep1.getD j 0)
          = keep1.filter (fun idx => pb (colB.getD idx defaultValue)) := by
        rw [hpred]
        exact filter_range_getD_map keep1 (fun idx => pb (colB.getD idx defaultValue)) 0
      have hff : keep1.filter (fun idx => pb (colB.getD idx defaultValue))
          = (List.range t.row_count_).filter
            (fun i => pa (colA.getD i defaultValue) && pb (colB.getD i defaultValue)) := by
        rw [hkeep1]
        rw [List.filter_filter]
        apply List.filter_congr
        intro i hi
        exact Bool.and_comm _ _
      refine ⟨_, rfl, ?_, ?_⟩
      · rw [← hff, ← hcomp, List.length_map]
      · intro j hj
        have hj2 : j < keep2.length := by
          rw [← hff, ← hcomp, List.length_map] at hj
          exact hj
        have hk2mem : keep2.getD j 0 ∈ keep2 := getD_mem_of_lt _ _ hj2 0
        have hk2lt : keep2.getD j 0 < keep1.length := by
          have := List.mem_range.mp (List.mem_filter.mp (hkeep2 ▸ hk2mem)).1
          exact this
        have hstep1 := filter_result_rowVals
          { schema := t.schema, names_ := t.names_,
            columns_ := t.columns_.map (fun src => keep1.map
              (fun idx => src.getD idx defaultValue)),
            row_count_ := keep1.length } keep2 j hj2
        have hstep2 := filter_result_rowVals t keep1 (keep2.getD j 0) hk2lt
        have hidx : keep1.getD (keep2.getD j 0) 0
            = ((List.range t.row_count_).filter
              (fun i => pa (colA.getD i defaultValue) &&
                pb (colB.getD i defaultValue))).getD j 0 := by
          rw [← hff, ← hcomp]
          rw [getD_map_of_lt _ _ _ hj2 _ 0]
        calc Columnar.rowVals _ j = _ := hstep1
          _ = t.rowVals (keep1.getD (keep2.getD j 0) 0) := hstep2
          _ = _ := by rw [hidx]
    · rw [if_neg hTb] at hgB1
      exact absurd hgB1 (by simp)

theorem filter_filter_conj_witness :
    (⟨[ColType.intCol, ColType.intCol], ["a".data, "b".data],
      [[Value.intV 2], [Value.intV 20]], 1⟩ : Columnar).row_count_ = 1 := by
  obtain ⟨colA, colB, hgA, hgB, -, -, keep, hkeep, hrc, -⟩ :=
    filter_filter_conj
      ⟨[ColType.intCol, ColType.intCol], ["a".data, "b".data],
        [[Value.intV 1, Value.intV 2, Value.intV 3],
          [Value.intV 10, Value.intV 20, Value.intV 30]], 3⟩
      (by decide) ColType.intCol ColType.intCol "a".data "b".data
      (fun v => decide (v ≠ Value.intV 1)) (fun v => decide (v = Value.intV 20))
      ⟨[ColType.intCol, ColType.intCol], ["a".data, "b".data],
        [[Value.intV 2, Value.intV 3], [Value.intV 20, Value.intV 30]], 2⟩
      ⟨[ColType.intCol, ColType.intCol], ["a".data, "b".data],
        [[Value.intV 2], [Value.intV 20]], 1⟩
      (by decide) (by decide)
  have hA : colA = [Value.intV 1, Value.intV 2, Value.intV 3] := by
    have he : Columnar.get_column_view
        ⟨[ColType.intCol, ColType.intCol], ["a".data, "b".data],
          [[Value.intV 1, Value.intV 2, Value.intV 3],
            [Value.intV 10, Value.intV 20, Value.intV 30]], 3⟩
        ColType.intCol "a".data
        = .ok [Value.intV 1, Value.intV 2, Value.intV 3] := by decide
    rw [he] at hgA
    injection hgA with h
    exact h.symm
  have hB : colB = [Value.intV 10, Value.intV 20, Value.intV 30] := by
    have he : Columnar.get_column_view
        ⟨[ColType.intCol, ColType.intCol], ["a".data, "b".data],
          [[Value.intV 1, Value.intV 2, Value.intV 3],
            [Value.intV 10, Value.intV 20, Value.intV 30]], 3⟩
        ColType.intCol "b".data
        = .ok [Value.intV 10, Value.intV 20, Value.intV 30] := by decide
    rw [he] at hgB
    injection hgB with h
    exact h.symm
  rw [hrc, hkeep, hA, hB]
  decide

/-! ### Loader -/

theorem parse_value_tag (τ : ColType) (cs : List Char) (v : Value)
    (h : parse_value τ cs = some v) : v.tag = τ := by
  cases τ with
  | intCol =>
    simp only [parse_value, Option.map_eq_some'] at h
    obtain ⟨n, -, rfl⟩ := h
    rfl
  | floatCol =>
    simp only [parse_value, Option.map_eq_some'] at h
    obtain ⟨x, -, rfl⟩ := h
    rfl
  | strCol =>
    simp only [parse_value, Option.some.injEq] at h
    rw [← h]
    rfl

theorem parseFields_shape (schema : List ColType) (cs : List Char) (row : List Value)
    (h : parseFields schema cs = some row) :
    row.length = schema.length ∧
      ∀ i < schema.length, (row.getD i defaultValue).tag = schema.getD i .strCol := by
  induction schema generalizing cs row with
  | nil =>
    simp only [parseFields] at h
    by_cases hall : cs.all (fun c => isCppSpace c)
    · rw [if_pos hall] at h
      injection h with h
      subst h
      refine ⟨rfl, ?_⟩
      intro i hi
      simp at hi
    · rw [if_neg hall] at h
      exact absurd h (by simp)
  | cons τ τs ih =>
    simp only [parseFields] at h
    cases hget : getlineField cs with
    | none =>
      simp only [hget] at h
      exact absurd h (by simp)
    | some pr =>
      obtain ⟨f, rest⟩ := pr
      simp only [hget] at h
      cases hpv : parse_value τ f with
      | none =>
        simp only [hpv] at h
        exact absurd h (by simp)
      | some v =>
        simp only [hpv, Option.map_eq_some'] at h
        obtain ⟨row', hrow', rfl⟩ := h
        obtain ⟨hlen, htags⟩ := ih rest row' hrow'
        refine ⟨by simp [hlen], ?_⟩
        intro i hi
        cases i with
        | zero => simpa using parse_value_tag τ f v hpv
        | succ i =>
          simp only [List.getD_cons_succ]
          exact htags i (by simp only [List.length_cons] at hi; omega)

theorem loadLines_err (schema : List ColType) (lines : List (List Char))
    (cols : List (List Value)) (rc : ℕ) (e : CsvError)
    (h : loadLines schema lines cols rc = .error e) : e = .ParseError := by
  induction lines generalizing cols rc with
  | nil => simp [loadLines] at h
  | cons line rest ih =>
    simp only [loadLines] at h
    by_cases hl : line = []
    · rw [if_pos hl] at h
      exact ih _ _ h
    · rw [if_neg hl] at h
      cases hp : parseFields schema line with
      | none =>
        simp only [hp] at h
        injection h with h
        exact h.symm
      | some row =>
        simp only [hp] at h
        exact ih _ _ h

theorem loadLines_ok_iff (schema : List ColType) (lines : List (List Char))
    (cols : List (List Value)) (rc : ℕ) :
    (∃ res, loadLines schema lines cols rc = .ok res) ↔
      ∀ line ∈ lines, line ≠ [] → (parseFields schema line).isSome := by
  induction lines generalizing cols rc with
  | nil => simp [loadLines]
  | cons line rest ih =>
    simp only [loadLines]
    by_cases hl : line = []
    · rw [if_pos hl, ih]
      constructor
      · intro hall l hm hne
        rcases List.mem_cons.mp hm with rfl | hm'
        · exact absurd hl hne
        · exact hall l hm' hne
      · intro hall l hm hne
        exact hall l (List.mem_cons_of_mem _ hm) hne
    · rw [if_neg hl]
      cases hp : parseFields schema line with
      | none =>
        constructor
        · rintro ⟨res, hres⟩
          simp only [hp] at hres
          exact absurd hres (by simp)
        · intro hall
          have := hall line (by simp) hl
          rw [hp] at this
          simp at this
      | some row =>
        simp only [hp]
        rw [ih]
        constructor
        · intro hall l hm hne
          rcases List.mem_cons.mp hm with rfl | hm'
          · rw [hp]
            rfl
          · exact hall l hm' hne
        · intro hall l hm hne
          exact hall l (List.mem_cons_of_mem _ hm) hne

theorem pushRow_getD (cols : List (List Value)) (row : List Value) (i : ℕ)
    (hic : i < cols.length) (hir : i < row.length) :
    (pushRow cols row).getD i [] = cols.getD i [] ++ [row.getD i defaultValue] := by
  unfold pushRow
  exact getD_zipWith _ cols row i hic hir [] [] defaultValue

theorem pushRow_length (cols : List (List Value)) (row : List Value)
    (h : cols.length = row.length) : (pushRow cols row).length = cols.length := by
  unfold pushRow
  rw [List.length_zipWith]
  omega

theorem loadLines_shape (schema : List ColType) (lines : List (List Char))
    (cols : List (List Value)) (rc : ℕ) (cols' : List (List Value)) (rc' : ℕ)
    (h : loadLines schema lines cols rc = .ok (cols', rc'))
    (hlen : cols.length = schema.length)
    (hclen : ∀ i < schema.length, (cols.getD i []).length = rc)
    (htag : ∀ i < schema.length, ∀ v ∈ cols.getD i [], v.tag = schema.getD i .strCol) :
    rc' = rc + (lines.filter (fun l => decide (l ≠ []))).length ∧
    cols'.length = schema.length ∧
    (∀ i < schema.length, (cols'.getD i []).length = rc') ∧
    (∀ i < schema.length, ∀ v ∈ cols'.getD i [], v.tag = schema.getD i .strCol) := by
  induction lines generalizing cols rc with
  | nil =>
    simp only [loadLines, Except.ok.injEq, Prod.mk.injEq] at h
    obtain ⟨rfl, rfl⟩ := h
    exact ⟨by simp, hlen, hclen, htag⟩
  | cons line rest ih =>
    simp only [loadLines] at h
    by_cases hl : line = []
    · rw [if_pos hl] at h
      have hres := ih cols rc h hlen hclen htag
      rw [List.filter_cons_of_neg (by simp [hl])]
      exact hres
    · rw [if_neg hl] at h
      cases hp : parseFields schema line with
      | none =>
        simp only [hp] at h
        exact absurd h (by simp)
      | some row =>
        simp only [hp] at h
        obtain ⟨hrlen, hrtag⟩ := parseFields_shape schema line row hp
        have hlen' : (pushRow cols row).length = schema.length := by
          rw [pushRow_length cols row (by omega)]
          exact hlen
        have hclen' : ∀ i < schema.length, ((pushRow cols row).getD i []).length = rc + 1 := by
          intro i hi
          rw [pushRow_getD cols row i (by omega) (by omega), List.length_append,
            hclen i hi]
          rfl
        have htag' : ∀ i < schema.length,
            ∀ v ∈ (pushRow cols row).getD i [], v.tag = schema.getD i .strCol := by
          intro i hi v hv
          rw [pushRow_getD cols row i (by omega) (by omega)] at hv
          rcases List.mem_append.mp hv with hv1 | hv2
          · exact htag i hi v hv1
          · rw [List.mem_singleton] at hv2
            subst hv2
            exact hrtag i hi
        obtain ⟨h1, h2, h3, h4⟩ := ih (pushRow cols row) (rc + 1) h hlen' hclen' htag'
        refine ⟨?_, h2, h3, h4⟩
        rw [List.filter_cons_of_pos (by simp [hl]), List.length_cons]
        omega

theorem try_read_ok_elim (schema : List ColType) (file : Option (List (List Char)))
    (t : Columnar) (h : try_read_from_csv schema file = .ok t) :
    ∃ header rest cols rc, file = some (header :: rest) ∧ header ≠ [] ∧
      (splitCsv header).length = schema.length ∧
      loadLines schema rest (schema.map fun _ => []) 0 = .ok (cols, rc) ∧
      t = ⟨schema, splitCsv header, cols, rc⟩ := by
  cases file with
  | none => simp [try_read_from_csv] at h
  | some lines =>
    cases lines with
    | nil => simp [try_read_from_csv] at h
    | cons header rest =>
      simp only [try_read_from_csv] at h
      by_cases hh : header = []
      · rw [if_pos hh] at h
        exact absurd h (by simp)
      · rw [if_neg hh] at h
        by_cases hcnt : (splitCsv header).length ≠ schema.length
        · rw [if_pos hcnt] at h
          exact absurd h (by simp)
        · rw [if_neg hcnt] at h
          cases hres : loadLines schema rest (schema.map fun _ => []) 0 with
          | error e =>
            simp only [hres] at h
            exact absurd h (by simp)
          | ok pr =>
            obtain ⟨cols, rc⟩ := pr
            simp only [hres] at h
            injection h with h
            exact ⟨header, rest, cols, rc, rfl, hh, not_ne_iff.mp hcnt, hres, h.symm⟩

theorem try_read_eq (schema : List ColType) (header : List Char)
    (rest : List (List Char)) (hh : header ≠ [])
    (hcnt : (splitCsv header).length = schema.length) :
    try_read_from_csv schema (some (header :: rest))
      = match loadLines schema rest (schema.map fun _ => []) 0 with
        | .error e => .error e
        | .ok (cols, rc) => .ok ⟨schema, splitCsv header, cols, rc⟩ := by
  simp only [try_read_from_csv, if_neg hh, if_neg (not_ne_iff.mpr hcnt)]

/-- C2: the load is all-or-nothing: it returns a table exactly when the
source is openable, the header line is present, non-empty and has one
field per schema position, and every non-blank data line parses; any
failure yields an error value instead, so no partial table is ever
handed to the caller. -/
theorem load_all_or_nothing (schema : List ColType) (file : Option (List (List Char))) :
    (∃ t, try_read_from_csv schema file = .ok t) ↔
      ∃ header rest, file = some (header :: rest) ∧ header ≠ [] ∧
        (splitCsv header).length = schema.length ∧
        ∀ line ∈ rest, line ≠ [] → (parseFields schema line).isSome := by
  constructor
  · rintro ⟨t, ht⟩
    obtain ⟨header, rest, cols, rc, rfl, hh, hcnt, hres, -⟩ :=
      try_read_ok_elim schema file t ht
    exact ⟨header, rest, rfl, hh, hcnt,
      (loadLines_ok_iff schema rest _ 0).mp ⟨_, hres⟩⟩
  · rintro ⟨header, rest, rfl, hh, hcnt, hall⟩
    obtain ⟨res, hres⟩ := (loadLines_ok_iff schema rest (schema.map fun _ => []) 0).mpr hall
    obtain ⟨cols, rc⟩ := res
    refine ⟨⟨schema, splitCsv header, cols, rc⟩, ?_⟩
    rw [try_read_eq schema header rest hh hcnt, hres]

theorem load_all_or_nothing_witness :
    ∃ t, try_read_from_csv [ColType.intCol] (some ["h".data, "7".data]) = .ok t :=
  (load_all_or_nothing [ColType.intCol] (some ["h".data, "7".data])).mpr
    ⟨"h".data, ["7".data], rfl, by decide, by decide, by decide⟩

/-- C4: every successful load has a row count equal to the number of
non-blank data lines, a column count equal to the schema's arity, all
column stores of length equal to the row count, and the header's fields
as the column names; and a header-only file loads successfully with zero
rows and the header fields as names. -/
theorem load_success_counts (schema : List ColType) :
    (∀ file t, try_read_from_csv schema file = .ok t →
      ∃ header rest, file = some (header :: rest) ∧
        t.num_rows = (rest.filter (fun l => decide (l ≠ []))).length ∧
        t.num_cols = schema.length ∧
        t.column_names = splitCsv header ∧
        t.column_names.length = schema.length ∧
        (∀ col ∈ t.columns_, col.length = t.num_rows) ∧
        t.WF) ∧
    (∀ header, header ≠ [] → (splitCsv header).length = schema.length →
      try_read_from_csv schema (some [header])
        = .ok ⟨schema, splitCsv header, schema.map (fun _ => []), 0⟩) := by
  constructor
  · intro file t ht
    obtain ⟨header, rest, cols, rc, rfl, hh, hcnt, hres, rfl⟩ :=
      try_read_ok_elim schema file t ht
    have hinit : (schema.map fun _ => ([] : List Value)).length = schema.length :=
      List.length_map _ _
    have hinitD : ∀ i < schema.length,
        ((schema.map fun _ => ([] : List Value)).getD i []) = [] := by
      intro i hi
      rw [getD_map_of_lt _ _ _ (by omega) _ ColType.strCol]
    obtain ⟨h1, h2, h3, h4⟩ := loadLines_shape schema rest _ 0 cols rc hres hinit
      (by intro i hi; rw [hinitD i hi]; rfl)
      (by intro i hi v hv; rw [hinitD i hi] at hv; exact absurd hv (by simp))
    have hcolmem : ∀ col ∈ cols, col.length = rc := by
      intro col hcm
      obtain ⟨i, hi, rfl⟩ := (mem_iff_getD cols col []).mp hcm
      exact h3 i (by omega)
    refine ⟨header, rest, rfl, by simpa [Columnar.num_rows] using h1,
      rfl, rfl, hcnt, hcolmem, hcnt, h2, hcolmem, h4⟩
  · intro header hne hcount
    rw [try_read_eq schema header [] hne hcount]
    simp only [loadLines]

theorem load_success_counts_witness :
    try_read_from_csv [ColType.intCol, ColType.strCol] (some ["a,b".data])
      = .ok ⟨[ColType.intCol, ColType.strCol], ["a".data, "b".data], [[], []], 0⟩ :=
  ((load_success_counts [ColType.intCol, ColType.strCol]).2 "a,b".data
    (by decide) (by decide)).trans (by decide)

/-- C5: the load fails with `FileNotFound` exactly when the source
cannot be opened; it fails with `InvalidFormat` exactly when the source
is empty, the first line is empty, or the header's comma-split field
count differs from the schema's arity; and on success the header fields
become the column names in positional order. -/
theorem load_header_errors (schema : List ColType) (file : Option (List (List Char))) :
    (try_read_from_csv schema file = .error .FileNotFound ↔ file = none) ∧
    (try_read_from_csv schema file = .error .InvalidFormat ↔
      (file = some [] ∨ ∃ header rest, file = some (header :: rest) ∧
        (header = [] ∨ (splitCsv header).length ≠ schema.length))) ∧
    (∀ t, try_read_from_csv schema file = .ok t →
      ∃ header rest, file = some (header :: rest) ∧ header ≠ [] ∧
        t.names_ = splitCsv header) := by
  cases file with
  | none =>
    refine ⟨by simp [try_read_from_csv], ?_, ?_⟩
    · simp [try_read_from_csv]
    · intro t h
      simp [try_read_from_csv] at h
  | some lines =>
    cases lines with
    | nil =>
      refine ⟨by simp [try_read_from_csv], by simp [try_read_from_csv], ?_⟩
      intro t h
      simp [try_read_from_csv] at h
    | cons header rest =>
      by_cases hh : header = []
      · have hform : try_read_from_csv schema (some (header :: rest))
            = .error .InvalidFormat := by
          simp [try_read_from_csv, hh]
        refine ⟨by simp [hform], ?_, ?_⟩
        · rw [hform]
          simp only [true_iff]
          exact Or.inr ⟨header, rest, rfl, Or.inl hh⟩
        · intro t h
          rw [hform] at h
          exact absurd h (by simp)
      · by_cases hcnt : (splitCsv header).length = schema.length
        · have hform := try_read_eq schema header rest hh hcnt
          have hrhs : ¬ (some (header :: rest) = some ([] : List (List Char)) ∨
              ∃ header' rest', some (header :: rest) = some (header' :: rest') ∧
                (header' = [] ∨ (splitCsv header').length ≠ schema.length)) := by
            rintro (hbad | ⟨header', rest', heq, hor⟩)
            · simp at hbad
            · injection heq with heq
              injection heq with heq1 heq2
              subst heq1
              rcases hor with h1 | h2
              · exact hh h1
              · exact h2 hcnt
          cases hres : loadLines schema rest (schema.map fun _ => []) 0 with
          | error e =>
            have he : e = CsvError.ParseError := loadLines_err schema rest _ 0 e hres
            subst he
            have hform2 : try_read_from_csv schema (some (header :: rest))
                = .error .ParseError := by
              rw [hform, hres]
            refine ⟨by simp [hform2], ?_, ?_⟩
            · rw [hform2]
              constructor
              · intro hbad
                exact absurd hbad (by simp)
              · intro hbad
                exact absurd hbad hrhs
            · intro t h
              rw [hform2] at h
              exact absurd h (by simp)
          | ok pr =>
            obtain ⟨cols, rc⟩ := pr
            have hform2 : try_read_from_csv schema (some (header :: rest))
                = .ok ⟨schema, splitCsv header, cols, rc⟩ := by
              rw [hform, hres]
            refine ⟨by simp [hform2], ?_, ?_⟩
            · rw [hform2]
              constructor
              · intro hbad
                exact absurd hbad (by simp)
              · intro hbad
                exact absurd hbad hrhs
            · intro t h
              rw [hform2] at h
              injection h with h
              exact ⟨header, rest, rfl, hh, by rw [← h]⟩
        · have hform : try_read_from_csv schema (some (header :: rest))
              = .error .InvalidFormat := by
            simp only [try_read_from_csv, if_neg hh]
            rw [if_pos hcnt]
          refine ⟨by simp [hform], ?_, ?_⟩
          · rw [hform]
            simp only [true_iff]
            exact Or.inr ⟨header, rest, rfl, Or.inr hcnt⟩
          · intro t h
            rw [hform] at h
            exact absurd h (by simp)

theorem load_header_errors_witness :
    try_read_from_csv [ColType.intCol] (some ["a,b".data])
      = .error CsvError.InvalidFormat :=
  (load_header_errors [ColType.intCol] (some ["a,b".data])).2.1.mpr
    (Or.inr ⟨"a,b".data, [], rfl, Or.inr (by decide)⟩)

/-- The first `n` getline fields of a row stream together with the
remaining stream contents; `none` when the stream runs out first (a
short row). -/
def takeFieldTokens : ℕ → List Char → Option (List (List Char) × List Char)
  | 0, cs => some ([], cs)
  | n + 1, cs =>
    match getlineField cs with
    | none => none
    | some (f, rest) =>
      (takeFieldTokens n rest).map (fun pr => (f :: pr.1, pr.2))

/-- C3 counterexample: a data line whose remaining content after the two
schema fields is a lone space is accepted by the load — the extra-token
check `row_stream >> value_str` skips whitespace and fails to extract a
token — although the claim requires any remaining trailing content to
fail the load with `ParseError`. -/
theorem row_trailing_blank_accepted :
    try_read_from_csv [ColType.intCol, ColType.intCol]
        (some ["a,b".data, "1,2, ".data])
      = .ok ⟨[ColType.intCol, ColType.intCol], ["a".data, "b".data],
             [[Value.intV 1], [Value.intV 2]], 1⟩ ∧
    takeFieldTokens 2 "1,2, ".data = some (["1".data, "2".data], [' ']) ∧
    ([' '] : List Char) ≠ [] := by
  refine ⟨by decide, by decide, by decide⟩

/-- C3 amended: a non-blank data line that yields fewer getline fields
than the schema requires always fails; and once every schema field is
consumed and parses, the line fails exactly when the remaining stream
content contains a non-whitespace character (whitespace-only remainders,
including the empty remainder left by a terminal delimiter, are
accepted). -/
theorem row_exactness_amended (schema : List ColType) (cs : List Char) :
    (takeFieldTokens schema.length cs = none → parseFields schema cs = none) ∧
    (∀ fs rest, takeFieldTokens schema.length cs = some (fs, rest) →
      (∀ pr ∈ schema.zip fs, (parse_value pr.1 pr.2).isSome) →
      (parseFields schema cs = none ↔ rest.any (fun c => !isCppSpace c) = true)) := by
  induction schema generalizing cs with
  | nil =>
    constructor
    · intro h
      simp [takeFieldTokens] at h
    · intro fs rest htk hall
      simp only [List.length_nil, takeFieldTokens, Option.some.injEq, Prod.mk.injEq] at htk
      obtain ⟨rfl, rfl⟩ := htk
      simp only [parseFields]
      by_cases hws : cs.all (fun c => isCppSpace c)
      · rw [if_pos hws]
        simp only [List.all_eq_true] at hws
        constructor
        · intro h
          exact absurd h (by simp)
        · intro hany
          rw [List.any_eq_true] at hany
          obtain ⟨c, hc, hnc⟩ := hany
          have := hws c hc
          simp [this] at hnc
      · rw [if_neg hws]
        constructor
        · intro _
          rw [List.any_eq_true]
          simp only [List.all_eq_true] at hws
          push_neg at hws
          obtain ⟨c, hc, hnc⟩ := hws
          exact ⟨c, hc, by simp [hnc]⟩
        · intro _
          rfl
  | cons τ τs ih =>
    constructor
    · intro h
      simp only [List.length_cons, takeFieldTokens] at h
      cases hget : getlineField cs with
      | none =>
        simp only [parseFields, hget]
      | some pr =>
        obtain ⟨f, rest1⟩ := pr
        simp only [hget, Option.map_eq_none'] at h
        have hsub := (ih rest1).1 h
        simp only [parseFields, hget, hsub]
        cases parse_value τ f <;> rfl
    · intro fs rest htk hall
      simp only [List.length_cons, takeFieldTokens] at htk
      cases hget : getlineField cs with
      | none =>
        simp only [hget] at htk
        exact absurd htk (by simp)
      | some pr =>
        obtain ⟨f, rest1⟩ := pr
        simp only [hget, Option.map_eq_some'] at htk
        obtain ⟨⟨fs', rest'⟩, htk', heq⟩ := htk
        simp only [Prod.mk.injEq] at heq
        obtain ⟨hfs, hrest⟩ := heq
        subst hfs
        subst hrest
        have hhead : (parse_value τ f).isSome := by
          apply hall (τ, f)
          simp [List.zip_cons_cons]
        cases hpv : parse_value τ f with
        | none =>
          rw [hpv] at hhead
          simp at hhead
        | some v =>
          have htail : ∀ pr ∈ τs.zip fs', (parse_value pr.1 pr.2).isSome := by
            intro pr hpr
            apply hall pr
            simp only [List.zip_cons_cons, List.mem_cons]
            exact Or.inr hpr
          have hiff := (ih rest1).2 fs' rest' htk' htail
          simp only [parseFields, hget, hpv, Option.map_eq_none']
          exact hiff

theorem row_exactness_amended_witness :
    parseFields [ColType.intCol, ColType.intCol] "1,2, ".data ≠ none := by
  have h := (row_exactness_amended [ColType.intCol, ColType.intCol] "1,2, ".data).2
    ["1".data, "2".data] [' '] (by decide) (by decide)
  intro hnone
  exact absurd (h.mp hnone) (by decide)

/-! ### The floating-point acceptance condition -/

theorem takeWhile_add_dropWhile_length (p : Char → Bool) (l : List Char) :
    (l.takeWhile p).length + (l.dropWhile p).length = l.length := by
  rw [← List.length_append, List.takeWhile_append_dropWhile]

theorem matchCI_length (pat cs rest : List Char) (h : matchCI pat cs = some rest) :
    pat.length + rest.length = cs.length := by
  induction pat generalizing cs with
  | nil =>
    simp only [matchCI, Option.some.injEq] at h
    subst h
    simp
  | cons p ps ih =>
    cases cs with
    | nil => simp [matchCI] at h
    | cons c cs' =>
      simp only [matchCI] at h
      by_cases hc : toLowerCh c = p
      · rw [if_pos hc] at h
        have := ih cs' h
        simp only [List.length_cons]
        omega
      · rw [if_neg hc] at h
        exact absurd h (by simp)

theorem parseDecSig_lt (cs : List Char) (q : ℚ) (r : List Char)
    (h : parseDecSig cs = some (q, r)) : r.length < cs.length := by
  have hsum := takeWhile_add_dropWhile_length Char.isDigit cs
  simp only [parseDecSig] at h
  split at h
  next r2 heq =>
    have hsum2 := takeWhile_add_dropWhile_length Char.isDigit r2
    split at h
    next => exact absurd h (by simp)
    next =>
      simp only [Option.some.injEq, Prod.mk.injEq] at h
      obtain ⟨-, hr⟩ := h
      subst hr
      rw [heq] at hsum
      simp only [List.length_cons] at hsum
      omega
  next hne =>
    split at h
    next => exact absurd h (by simp)
    next hip =>
      simp only [Option.some.injEq, Prod.mk.injEq] at h
      obtain ⟨-, hr⟩ := h
      subst hr
      have hpos : 0 < (cs.takeWhile Char.isDigit).length :=
        List.length_pos.mpr hip
      omega

theorem parseHexSig_lt (cs : List Char) (q : ℚ) (r : List Char)
    (h : parseHexSig cs = some (q, r)) : r.length < cs.length := by
  have hsum := takeWhile_add_dropWhile_length isHexDigit cs
  simp only [parseHexSig] at h
  split at h
  next r2 heq =>
    have hsum2 := takeWhile_add_dropWhile_length isHexDigit r2
    split at h
    next => exact absurd h (by simp)
    next =>
      simp only [Option.some.injEq, Prod.mk.injEq] at h
      obtain ⟨-, hr⟩ := h
      subst hr
      rw [heq] at hsum
      simp only [List.length_cons] at hsum
      omega
  next hne =>
    split at h
    next => exact absurd h (by simp)
    next hip =>
      simp only [Option.some.injEq, Prod.mk.injEq] at h
      obtain ⟨-, hr⟩ := h
      subst hr
      have hpos : 0 < (cs.takeWhile isHexDigit).length :=
        List.length_pos.mpr hip
      omega

theorem expDigits_le (cs : List Char) (e : ℤ) (r : List Char)
    (h : expDigits cs = some (e, r)) : r.length ≤ cs.length := by
  simp only [expDigits] at h
  split at h
  next r0 =>
    split at h
    next => exact absurd h (by simp)
    next =>
      simp only [Option.some.injEq, Prod.mk.injEq] at h
      obtain ⟨-, hr⟩ := h
      subst hr
      have := length_dropWhile_le Char.isDigit r0
      simp only [List.length_cons]
      omega
  next r0 =>
    split at h
    next => exact absurd h (by simp)
    next =>
      simp only [Option.some.injEq, Prod.mk.injEq] at h
      obtain ⟨-, hr⟩ := h
      subst hr
      have := length_dropWhile_le Char.isDigit r0
      simp only [List.length_cons]
      omega
  next =>
    split at h
    next => exact absurd h (by simp)
    next =>
      simp only [Option.some.injEq, Prod.mk.injEq] at h
      obtain ⟨-, hr⟩ := h
      subst hr
      exact length_dropWhile_le Char.isDigit cs

theorem parseExp_le (b : Bool) (cs : List Char) : (parseExp b cs).2.length ≤ cs.length := by
  simp only [parseExp]
  split
  next c r0 =>
    split
    · split
      next e rest heq =>
        have := expDigits_le r0 e rest heq
        simp only [List.length_cons]
        omega
      next => exact le_refl _
    · exact le_refl _
  next => simp

theorem nanSeq_le (cs : List Char) : (nanSeq cs).length ≤ cs.length := by
  simp only [nanSeq]
  split
  next r =>
    split
    next rest heq2 =>
      have hsum := takeWhile_add_dropWhile_length (fun c => c.isAlphanum || c = '_') r
      rw [heq2] at hsum
      simp only [List.length_cons] at hsum ⊢
      omega
    next => exact le_refl _
  next => exact le_refl _

theorem strtodDec_lt (neg : Bool) (cs : List Char) (v : FVal) (r : List Char)
    (h : strtodDec neg cs = some (v, r)) : r.length < cs.length := by
  simp only [strtodDec] at h
  split at h
  next => exact absurd h (by simp)
  next q r2 heq =>
    simp only [Option.some.injEq, Prod.mk.injEq] at h
    obtain ⟨-, hr⟩ := h
    subst hr
    have h1 := parseDecSig_lt cs q r2 heq
    have h2 := parseExp_le false r2
    omega

theorem strtodNum_lt (neg : Bool) (cs1 : List Char) (v : FVal) (r : List Char)
    (h : strtodNum neg cs1 = some (v, r)) : r.length < cs1.length := by
  simp only [strtodNum] at h
  split at h
  next x r0 =>
    split at h
    · split at h
      next q r2 heq2 =>
        simp only [Option.some.injEq, Prod.mk.injEq] at h
        obtain ⟨-, hr⟩ := h
        have h1 := parseHexSig_lt r0 q r2 heq2
        have h2 := parseExp_le true r2
        have hlen : (parseExp true r2).2.length = r.length := by rw [hr]
        simp only [List.length_cons]
        omega
      next => exact strtodDec_lt neg _ v r h
    · exact strtodDec_lt neg _ v r h
  next => exact strtodDec_lt neg _ v r h

theorem strtodBody_lt (neg : Bool) (cs1 : List Char) (v : FVal) (r : List Char)
    (h : strtodBody neg cs1 = some (v, r)) : r.length < cs1.length := by
  simp only [strtodBody] at h
  split at h
  next rest heq =>
    simp only [Option.some.injEq, Prod.mk.injEq] at h
    obtain ⟨-, hr⟩ := h
    have hm := matchCI_length "infinity".data cs1 rest heq
    have h8 : ("infinity".data).length = 8 := by decide
    have hlen : rest.length = r.length := by rw [hr]
    omega
  next =>
    split at h
    next rest heq =>
      simp only [Option.some.injEq, Prod.mk.injEq] at h
      obtain ⟨-, hr⟩ := h
      have hm := matchCI_length "inf".data cs1 rest heq
      have h3 : ("inf".data).length = 3 := by decide
      have hlen : rest.length = r.length := by rw [hr]
      omega
    next =>
      split at h
      next rest heq =>
        simp only [Option.some.injEq, Prod.mk.injEq] at h
        obtain ⟨-, hr⟩ := h
        have hm := matchCI_length "nan".data cs1 rest heq
        have h3 : ("nan".data).length = 3 := by decide
        have hn := nanSeq_le rest
        have hlen : (nanSeq rest).length = r.length := by rw [hr]
        omega
      next => exact strtodNum_lt neg cs1 v r h

theorem strtodAux_lt (cs : List Char) (v : FVal) (r : List Char)
    (h : strtodAux cs = some (v, r)) : r.length < cs.length := by
  simp only [strtodAux] at h
  split at h
  next r0 =>
    have := strtodBody_lt false r0 v r h
    simp only [List.length_cons]
    omega
  next r0 =>
    have := strtodBody_lt true r0 v r h
    simp only [List.length_cons]
    omega
  next =>
    exact strtodBody_lt false _ v r h
/-- C6 amended: a field parsed into a floating-point column is accepted
exactly when, after the leading whitespace that `strtod` skips, the
remainder of the field is one maximal `strtod` numeral — a signed
decimal/scientific, hexadecimal, infinity or NaN form — that consumes
the entire remainder, and the converted value triggers no `ERANGE`
(overflow, or underflow below the normal range) report; every other
field fails the load with `ParseError`. -/
theorem parse_float_accept_iff (cs : List Char) :
    (∃ v, parse_value_float cs = some v) ↔
      ∃ v, strtodAux (cs.dropWhile isCppSpace) = some (v, []) ∧
        fvalErange v = false := by
  cases hs : strtodAux (cs.dropWhile isCppSpace) with
  | none =>
    have hout : strtod cs = (.finite 0, 0, false) := by
      simp only [strtod, hs]
    have hpv : parse_value_float cs = none := by
      simp [parse_value_float, hout]
    constructor
    · rintro ⟨v, hv⟩
      rw [hpv] at hv
      exact absurd hv (by simp)
    · rintro ⟨v, hv, -⟩
      exact absurd hv (by simp)
  | some pr =>
    obtain ⟨v0, rest⟩ := pr
    have hlt := strtodAux_lt _ _ _ hs
    have hle := length_dropWhile_le isCppSpace cs
    have hout : strtod cs = (v0, cs.length - rest.length, fvalErange v0) := by
      simp only [strtod, hs]
    have hpv : parse_value_float cs
        = if cs.length - rest.length = 0 then none
          else if cs.length - rest.length ≠ cs.length then none
          else if fvalErange v0 then none else some v0 := by
      simp only [parse_value_float, hout]
    constructor
    · rintro ⟨v, hv⟩
      rw [hpv] at hv
      by_cases h1 : cs.length - rest.length = 0
      · rw [if_pos h1] at hv
        exact absurd hv (by simp)
      · rw [if_neg h1] at hv
        by_cases h2 : cs.length - rest.length ≠ cs.length
        · rw [if_pos h2] at hv
          exact absurd hv (by simp)
        · rw [if_neg h2] at hv
          by_cases h3 : fvalErange v0
          · rw [if_pos h3] at hv
            exact absurd hv (by simp)
          · rw [if_neg h3] at hv
            push_neg at h2
            have hrest : rest = [] := List.length_eq_zero.mp (by omega)
            subst hrest
            exact ⟨v0, rfl, by simpa using h3⟩
    · rintro ⟨v, hv, her⟩
      simp only [Option.some.injEq, Prod.mk.injEq] at hv
      obtain ⟨hv0, hrest⟩ := hv
      subst hrest
      refine ⟨v0, ?_⟩
      rw [hpv]
      rw [if_neg (by
        have h0 : ([] : List Char).length = 0 := rfl
        omega)]
      rw [if_neg (by
        have h0 : ([] : List Char).length = 0 := rfl
        omega)]
      rw [if_neg (by rw [hv0]; simp [her])]

/-- Modelled from the claim's words (not from the source): the whole
field — with no leading or trailing characters outside the numeral — is
a decimal/scientific numeral (optional sign, decimal significand,
optional decimal exponent), whose exact value is within the magnitude
range (no overflow or underflow report). -/
def decimalNumeralSpansInRange (cs : List Char) : Bool :=
  match strtodDec (match cs with | '-' :: _ => true | _ => false)
      (match cs with | '+' :: r => r | '-' :: r => r | r => r) with
  | some (v, rest) => rest.isEmpty && !fvalErange v
  | none => false

/-- C6 counterexample: the field " 1.5" is not a decimal/scientific
numeral spanning the whole field (its leading space is outside the
numeral), yet the load accepts it, because `strtod` skips leading
whitespace; the `strtod` hexadecimal and infinity forms, which are not
decimal/scientific numerals, are accepted as well. -/
theorem float_nonspanning_accepted :
    decimalNumeralSpansInRange " 1.5".data = false ∧
    parse_value ColType.floatCol " 1.5".data
      = some (Value.floatV (.finite (mkRat 3 2))) ∧
    decimalNumeralSpansInRange "0x10".data = false ∧
    (parse_value ColType.floatCol "0x10".data).isSome = true ∧
    decimalNumeralSpansInRange "inf".data = false ∧
    (parse_value ColType.floatCol "inf".data).isSome = true ∧
    try_read_from_csv [ColType.floatCol] (some ["x".data, " 1.5".data])
      = .ok ⟨[ColType.floatCol], ["x".data],
             [[Value.floatV (.finite (mkRat 3 2))]], 1⟩ := by
  refine ⟨by decide, by decide, by decide, by decide, by decide, by decide, by decide⟩
